import Mathlib

/-!
Verification development for `src/node/RingBuffer.hpp` (ZeroTier's `RingBuffer<T>`).

The template class is embedded shallowly at the element type `T = ℚ`: the C++
statistics return `float` and cast elements with `(float)`, which is modelled
here with exact rational arithmetic (the properties at issue concern which
elements are visited and which divisors are used, not floating-point rounding).
The private members `buf`, `size`, `begin`, `end`, `wrap` become the fields of
the `RingBuffer` structure (`end` is a Lean keyword, hence `end_`), and each
member function becomes a Lean function on that structure, translated
line-by-line from the source.  `size_t` arithmetic is modelled with `ℕ`
(truncated subtraction mirrors the non-underflowing uses in the source; where
the source can take `% 0` — undefined behaviour in C++ — this is noted at the
definition and treated in the corresponding claim).
-/

namespace ZeroTier

/-- State of `RingBuffer<T>` (src/node/RingBuffer.hpp, lines 50-58), with the
private members `buf`, `size`, `begin`, `end` (here `end_`) and `wrap`. -/
structure RingBuffer where
  buf : List ℚ
  size : ℕ
  begin : ℕ
  end_ : ℕ
  wrap : Bool
  deriving Repr, DecidableEq

/-- The constructor `RingBuffer(size)` (lines 65-73): `memset` zeroes the
freshly allocated storage; `begin = end = 0`, `wrap = false`. -/
def fresh (size : ℕ) : RingBuffer :=
  { buf := List.replicate size 0, size := size, begin := 0, end_ := 0, wrap := false }

/-- `count()` (lines 215-226). -/
def count (s : RingBuffer) : ℕ :=
  if s.end_ = s.begin then
    (if s.wrap then s.size else 0)
  else if s.begin < s.end_ then
    s.end_ - s.begin
  else
    s.size + s.end_ - s.begin

/-- `getFree()` (line 231): `size - count()`. -/
def getFree (s : RingBuffer) : ℕ := s.size - count s

/-- `produce(n)` (lines 88-104).  Returns the new state and the value returned
by the C++ function. -/
def produce (s : RingBuffer) (n0 : ℕ) : RingBuffer × ℕ :=
  let n := min n0 (getFree s)
  if n = 0 then (s, n)
  else
    let first_chunk := min n (s.size - s.end_)
    let e1 := (s.end_ + first_chunk) % s.size
    let e2 := if first_chunk < n then (e1 + (n - first_chunk)) % s.size else e1
    let w := if s.begin = e2 then true else s.wrap
    ({ s with end_ := e2, wrap := w }, n)

/-- `consume(n)` (lines 120-136). -/
def consume (s : RingBuffer) (n0 : ℕ) : RingBuffer × ℕ :=
  let n := min n0 (count s)
  if n = 0 then (s, n)
  else
    let first_chunk := min n (s.size - s.begin)
    let b1 := (s.begin + first_chunk) % s.size
    let b2 := if first_chunk < n then (b1 + (n - first_chunk)) % s.size else b1
    ({ s with begin := b2, wrap := false }, n)

/-- `reset()` (lines 110-113): `consume(count())`. -/
def reset (s : RingBuffer) : RingBuffer := (consume s (count s)).1

/-- `memcpy(buf + i, xs, xs.length * sizeof(T))`: overwrite the slots
`i, i+1, ...` of `l` with the elements of `xs`. -/
def overwriteAt (l : List ℚ) (i : ℕ) : List ℚ → List ℚ
  | [] => l
  | x :: xs => overwriteAt (l.set i x) (i + 1) xs

/-- `write(data, n)` (lines 142-160). -/
def write (s : RingBuffer) (data : List ℚ) (n0 : ℕ) : RingBuffer × ℕ :=
  let n := min n0 (getFree s)
  if n = 0 then (s, n)
  else
    let first_chunk := min n (s.size - s.end_)
    let buf1 := overwriteAt s.buf s.end_ (data.take first_chunk)
    let e1 := (s.end_ + first_chunk) % s.size
    if first_chunk < n then
      let second_chunk := n - first_chunk
      let buf2 := overwriteAt buf1 e1 ((data.drop first_chunk).take second_chunk)
      let e2 := (e1 + second_chunk) % s.size
      let w := if s.begin = e2 then true else s.wrap
      ({ s with buf := buf2, end_ := e2, wrap := w }, n)
    else
      let w := if s.begin = e1 then true else s.wrap
      ({ s with buf := buf1, end_ := e1, wrap := w }, n)

/-- `push(value)` (lines 167-178).  On a full buffer it first calls
`consume(1)`.  Note that on a zero-capacity buffer the C++ writes `*(buf+end)`
out of bounds and computes `(end + first_chunk) % size` with `size == 0`
(undefined behaviour); the model uses `List.set` (out-of-range no-op) and `ℕ`
remainder (`x % 0 = x`) there. -/
def push (s0 : RingBuffer) (value : ℚ) : RingBuffer :=
  let s := if count s0 = s0.size then (consume s0 1).1 else s0
  let first_chunk := min 1 (s.size - s.end_)
  let buf1 := s.buf.set s.end_ value
  let e1 := (s.end_ + first_chunk) % s.size
  let w := if s.begin = e1 then true else s.wrap
  { s with buf := buf1, end_ := e1, wrap := w }

/-- `get_most_recent()` (line 183): `return *(buf + end);` — it dereferences
the slot at the current `end` index (the next free write slot).  A read has no
effect on the state, which the embedding reflects by being a plain function of
the state. -/
def get_most_recent (s : RingBuffer) : ℚ := s.buf.getD s.end_ 0

/-- `read(dest, n)` (lines 190-208).  Returns the new state, the data copied
into `dest`, and the value returned by the C++ function. -/
def read (s : RingBuffer) (n0 : ℕ) : RingBuffer × List ℚ × ℕ :=
  let n := min n0 (count s)
  if n = 0 then (s, [], n)
  else
    let first_chunk := min n (s.size - s.begin)
    let out1 := (s.buf.drop s.begin).take first_chunk
    let b1 := (s.begin + first_chunk) % s.size
    if first_chunk < n then
      let second_chunk := n - first_chunk
      let out2 := (s.buf.drop b1).take second_chunk
      let b2 := (b1 + second_chunk) % s.size
      ({ s with begin := b2, wrap := false }, out1 ++ out2, n)
    else
      ({ s with begin := b1, wrap := false }, out1, n)

/-- One step of the statistics iterator (lines 242, 258, 299, 317):
`iterator = (iterator + size - 1) % curr_cnt;`.  Note the C++ takes the
remainder by `cnt` (the occupied count), not by `size`; with `cnt == 0` this
is `% 0`, undefined behaviour in C++ (`ℕ` remainder gives `x % 0 = x`). -/
def statStep (size cnt it : ℕ) : ℕ := (it + size - 1) % cnt

/-- The running `subtotal` of the `mean`/`mean(n)` loops: `k` iterations
starting from iterator value `it`, each stepping the iterator and then adding
`(float)*(buf + iterator)`. -/
def statSum (buf : List ℚ) (size cnt : ℕ) : ℕ → ℕ → ℚ
  | 0, _ => 0
  | k + 1, it =>
    let it1 := statStep size cnt it
    buf.getD it1 0 + statSum buf size cnt k it1

/-- `mean()` (lines 236-246). -/
def mean (s : RingBuffer) : ℚ :=
  let curr_cnt := count s
  let subtotal := statSum s.buf s.size curr_cnt curr_cnt s.begin
  if curr_cnt = 0 then 0 else subtotal / (curr_cnt : ℚ)

/-- The clamp `n = n < size ? n : size` on line 253 of `mean(n)`; exposed as
its own definition because the claim about division/modulo by zero is settled
by evaluating it (it is the trip count of a loop whose body takes `% count()`). -/
def mean_n_clamp (s : RingBuffer) (n0 : ℕ) : ℕ :=
  if n0 < s.size then n0 else s.size

/-- `mean(n)` (lines 251-262): the loop runs `mean_n_clamp` times but the
iterator steps `% count()` and the divisor is `count()`. -/
def mean_n (s : RingBuffer) (n0 : ℕ) : ℚ :=
  let n := mean_n_clamp s n0
  let curr_cnt := count s
  let subtotal := statSum s.buf s.size curr_cnt n s.begin
  if curr_cnt = 0 then 0 else subtotal / (curr_cnt : ℚ)

/-- `variance()` (lines 272-288).  The loop reads `buf[i]` at the raw loop
index (the `iterator` updates on line 280 are dead code for the result), and
the final division is by `size - 1`, not `count() - 1`. -/
def variance (s : RingBuffer) : ℚ :=
  let cached_mean := mean s
  let curr_cnt := count s
  if s.size ≠ 0 then
    ((List.range curr_cnt).foldl
        (fun acc i =>
          acc + (s.buf.getD i 0 - cached_mean) * (s.buf.getD i 0 - cached_mean))
        0) / ((s.size - 1 : ℕ) : ℚ)
  else 0

/-- The counting loop shared by `zeroCount` (lines 293-305) and `countValue`
(lines 311-323): `k` iterations, each stepping the iterator `% cnt` and
testing `*(buf + iterator) == value`. -/
def statCount (buf : List ℚ) (size cnt : ℕ) (value : ℚ) : ℕ → ℕ → ℕ
  | 0, _ => 0
  | k + 1, it =>
    let it1 := statStep size cnt it
    (if buf.getD it1 0 = value then 1 else 0) + statCount buf size cnt value k it1

/-- `zeroCount()` (lines 293-305). -/
def zeroCount (s : RingBuffer) : ℕ :=
  statCount s.buf s.size (count s) 0 (count s) s.begin

/-- `countValue(value)` (lines 311-323). -/
def countValue (s : RingBuffer) (value : ℚ) : ℕ :=
  statCount s.buf s.size (count s) value (count s) s.begin

/-- The logical contents of the buffer, oldest to newest: element `i` of the
occupied range lives at physical index `(begin + i) % size` (spec §3, §4.6). -/
def toList (s : RingBuffer) : List ℚ :=
  (List.range (count s)).map fun i => s.buf.getD ((s.begin + i) % s.size) 0

/-- The structural well-formedness of a buffer state: the storage has exactly
`size` slots, the indices are in range (both pinned to `0` in the degenerate
zero-capacity case), and the `wrap` flag is only ever raised with
`begin == end`. -/
def Inv (s : RingBuffer) : Prop :=
  s.buf.length = s.size ∧
  (0 < s.size → s.begin < s.size ∧ s.end_ < s.size) ∧
  (s.size = 0 → s.begin = 0 ∧ s.end_ = 0) ∧
  (s.wrap = true → s.begin = s.end_)

instance (s : RingBuffer) : Decidable (Inv s) := by
  unfold Inv; infer_instance

/-- Spec-side definition, written from the claim's words for comparison with
`mean_n`: the arithmetic mean of the most recent `min n capacity` elements (a
suffix window of the occupied range), `0` if there are no occupied elements. -/
def meanWindowSpec (s : RingBuffer) (n : ℕ) : ℚ :=
  let w := (toList s).drop ((toList s).length - min n s.size)
  if w.length = 0 then 0 else w.sum / (w.length : ℚ)

/-- Spec-side definition, written from the claim's words for comparison with
`variance`: the sum of squared deviations of the occupied elements from
`Mean()`, divided by `Count() - 1`, and `0` whenever `Count() ≤ 1`. -/
def varianceSpec (s : RingBuffer) : ℚ :=
  if count s ≤ 1 then 0
  else (((toList s).map fun x => (x - mean s) * (x - mean s)).sum)
    / ((count s - 1 : ℕ) : ℚ)

/-- A capacity-5 buffer holding 1,2,3,4,5 (oldest to newest). -/
def fiveState : RingBuffer := List.foldl push (fresh 5) [1, 2, 3, 4, 5]

/-- A capacity-4 buffer holding 1,5 (oldest to newest). -/
def partialState : RingBuffer := push (push (fresh 4) 1) 5

/-- A capacity-3 buffer holding 1,5 (oldest to newest). -/
def shortState : RingBuffer := push (push (fresh 3) 1) 5

/-- A capacity-3 buffer holding 0,5 (oldest to newest). -/
def shortZeroState : RingBuffer := push (push (fresh 3) 0) 5

/-- States reachable from a freshly constructed buffer by the public mutating
operations. -/
inductive Reachable : RingBuffer → Prop
  | fresh (n : ℕ) : Reachable (fresh n)
  | push (s : RingBuffer) (v : ℚ) : Reachable s → Reachable (push s v)
  | write (s : RingBuffer) (data : List ℚ) (n : ℕ) :
      Reachable s → Reachable ((write s data n).1)
  | read (s : RingBuffer) (n : ℕ) : Reachable s → Reachable ((read s n).1)
  | produce (s : RingBuffer) (n : ℕ) : Reachable s → Reachable ((produce s n).1)
  | consume (s : RingBuffer) (n : ℕ) : Reachable s → Reachable ((consume s n).1)
  | reset (s : RingBuffer) : Reachable s → Reachable (reset s)

theorem produce_size (s : RingBuffer) (n : ℕ) : (produce s n).1.size = s.size := by
  simp only [produce]; split <;> rfl

theorem produce_begin (s : RingBuffer) (n : ℕ) : (produce s n).1.begin = s.begin := by
  simp only [produce]; split <;> rfl

theorem produce_buf (s : RingBuffer) (n : ℕ) : (produce s n).1.buf = s.buf := by
  simp only [produce]; split <;> rfl

theorem produce_ret (s : RingBuffer) (n : ℕ) : (produce s n).2 = min n (getFree s) := by
  simp only [produce]; split <;> rfl

theorem consume_size (s : RingBuffer) (n : ℕ) : (consume s n).1.size = s.size := by
  simp only [consume]; split <;> rfl

theorem consume_end (s : RingBuffer) (n : ℕ) : (consume s n).1.end_ = s.end_ := by
  simp only [consume]; split <;> rfl

theorem consume_buf (s : RingBuffer) (n : ℕ) : (consume s n).1.buf = s.buf := by
  simp only [consume]; split <;> rfl

theorem consume_ret (s : RingBuffer) (n : ℕ) : (consume s n).2 = min n (count s) := by
  simp only [consume]; split <;> rfl

theorem write_size (s : RingBuffer) (data : List ℚ) (n : ℕ) :
    (write s data n).1.size = s.size := by
  simp only [write]; split
  · rfl
  · split <;> rfl

theorem write_begin (s : RingBuffer) (data : List ℚ) (n : ℕ) :
    (write s data n).1.begin = s.begin := by
  simp only [write]; split
  · rfl
  · split <;> rfl

theorem write_ret (s : RingBuffer) (data : List ℚ) (n : ℕ) :
    (write s data n).2 = min n (getFree s) := by
  simp only [write]; split
  · rfl
  · split <;> rfl

theorem read_size (s : RingBuffer) (n : ℕ) : (read s n).1.size = s.size := by
  simp only [read]; split
  · rfl
  · split <;> rfl

theorem read_end (s : RingBuffer) (n : ℕ) : (read s n).1.end_ = s.end_ := by
  simp only [read]; split
  · rfl
  · split <;> rfl

theorem read_buf (s : RingBuffer) (n : ℕ) : (read s n).1.buf = s.buf := by
  simp only [read]; split
  · rfl
  · split <;> rfl

theorem read_ret (s : RingBuffer) (n : ℕ) : (read s n).2.2 = min n (count s) := by
  simp only [read]; split
  · rfl
  · split <;> rfl

theorem push_size (s : RingBuffer) (v : ℚ) : (push s v).size = s.size := by
  simp only [push]; split <;> simp [consume_size]

/-- `count` is at most the capacity on any well-formed state. -/
theorem count_le {s : RingBuffer} (h : Inv s) : count s ≤ s.size := by
  obtain ⟨-, hpos, hzero, -⟩ := h
  rcases Nat.eq_zero_or_pos s.size with h0 | h0
  · obtain ⟨hb, he⟩ := hzero h0
    unfold count; rw [hb, he]; simp [h0]
  · obtain ⟨hb, he⟩ := hpos h0
    unfold count
    split
    · split <;> omega
    · split <;> omega

/-- On a well-formed state, `end` is `begin` advanced by `count` modulo the
capacity. -/
theorem end_eq {s : RingBuffer} (h : Inv s) :
    s.end_ = (s.begin + count s) % s.size := by
  obtain ⟨-, hpos, hzero, -⟩ := h
  rcases Nat.eq_zero_or_pos s.size with h0 | h0
  · obtain ⟨hb, he⟩ := hzero h0
    unfold count; rw [hb, he]; simp [h0]
  · obtain ⟨hb, he⟩ := hpos h0
    unfold count
    split
    · next h1 =>
      split
      · rw [h1, Nat.add_mod_right, Nat.mod_eq_of_lt hb]
      · rw [Nat.add_zero, Nat.mod_eq_of_lt hb, h1]
    · split
      · next h1 h2 =>
        have h3 : s.begin + (s.end_ - s.begin) = s.end_ := by omega
        rw [h3, Nat.mod_eq_of_lt he]
      · next h1 h2 =>
        have h3 : s.begin + (s.size + s.end_ - s.begin) = s.size + s.end_ := by omega
        rw [h3, Nat.add_mod_left, Nat.mod_eq_of_lt he]

/-- On a well-formed positive-capacity state, `count` reports the capacity
exactly when `wrap` is raised. -/
theorem count_eq_size_iff {s : RingBuffer} (h : Inv s) (h0 : 0 < s.size) :
    count s = s.size ↔ s.wrap = true := by
  obtain ⟨-, hpos, -, hwrap⟩ := h
  obtain ⟨hb, he⟩ := hpos h0
  constructor
  · intro hc
    unfold count at hc
    by_contra hw
    have hw' : s.wrap = false := by revert hw; cases s.wrap <;> simp
    rw [hw'] at hc
    revert hc; split
    · simp; omega
    · split <;> omega
  · intro hw
    have hbe := hwrap hw
    unfold count
    rw [hbe]; simp [hw]

/-- Master counting lemma: a state whose `end` sits `c` slots past `begin`
(modulo the capacity) and whose `wrap` flag is raised exactly at `c = size`
has `count = c`. -/
theorem count_eq_of {s : RingBuffer} {c : ℕ} (hb : s.begin < s.size)
    (hc : c ≤ s.size) (hend : s.end_ = (s.begin + c) % s.size)
    (hw : s.wrap = true ↔ c = s.size) : count s = c := by
  have hsz : 0 < s.size := Nat.lt_of_le_of_lt (Nat.zero_le _) hb
  rcases Nat.lt_or_ge (s.begin + c) s.size with hlt | hge
  · have he : s.end_ = s.begin + c := by rw [hend, Nat.mod_eq_of_lt hlt]
    rcases Nat.eq_zero_or_pos c with hc0 | hc0
    · subst hc0
      have hw' : s.wrap = false := by
        rcases Bool.eq_false_or_eq_true s.wrap with h' | h'
        · exact absurd (hw.mp h') (by omega)
        · exact h'
      unfold count
      rw [he, Nat.add_zero, hw']; simp
    · unfold count
      rw [he]; split
      · omega
      · split <;> omega
  · have hlt2 : s.begin + c < 2 * s.size := by omega
    have he : s.end_ = s.begin + c - s.size := by
      rw [hend, Nat.mod_eq_sub_mod hge, Nat.mod_eq_of_lt (by omega)]
    rcases Nat.lt_or_ge c s.size with hcs | hcs
    · have hw' : s.wrap = false := by
        rcases Bool.eq_false_or_eq_true s.wrap with h' | h'
        · exact absurd (hw.mp h') (by omega)
        · exact h'
      unfold count
      rw [hw']; split
      · next h1 => omega
      · split <;> omega
    · have hcs' : c = s.size := by omega
      have hw' : s.wrap = true := hw.mpr hcs'
      unfold count
      rw [hw']; split
      · simp; omega
      · next h1 => exfalso; omega

/-- Stepping distinct in-range offsets from a common base never collides
modulo the capacity. -/
theorem mod_add_inj {size b i j : ℕ} (hi : i < size) (hj : j < size)
    (h : (b + i) % size = (b + j) % size) : i = j := by
  have h1 : i ≡ j [MOD size] := Nat.ModEq.add_left_cancel' b h
  have h2 : i % size = j % size := h1
  rw [Nat.mod_eq_of_lt hi, Nat.mod_eq_of_lt hj] at h2
  exact h2

/-- Advancing `c` slots from `b` returns to `b` exactly when `c` is a full
lap. -/
theorem add_mod_eq_self_iff {size b c : ℕ} (hb : b < size) (hc : c ≤ size)
    (hc0 : 0 < c) : (b + c) % size = b ↔ c = size := by
  constructor
  · intro h
    by_contra hne
    have hcs : c < size := by omega
    have h2 : (b + c) % size = (b + 0) % size := by
      rw [Nat.add_zero, Nat.mod_eq_of_lt hb, h]
    have := mod_add_inj hcs (by omega) h2
    omega
  · intro h
    subst h
    rw [Nat.add_mod_right, Nat.mod_eq_of_lt hb]

/-- A raised `wrap` flag on a well-formed state means the buffer is full, so
there is no free space. -/
theorem getFree_eq_zero_of_wrap {s : RingBuffer} (h : Inv s)
    (hw : s.wrap = true) : getFree s = 0 := by
  have hbe := h.2.2.2 hw
  have hc : count s = s.size := by
    unfold count
    rw [if_pos hbe.symm, if_pos hw]
  unfold getFree
  omega

theorem produce_nop {s : RingBuffer} {n : ℕ} (h : min n (getFree s) = 0) :
    (produce s n).1 = s := by
  simp only [produce]
  rw [if_pos h]

theorem produce_end {s : RingBuffer} (n : ℕ) (h : Inv s) :
    (produce s n).1.end_ = (s.end_ + min n (getFree s)) % s.size := by
  simp only [produce]
  split
  · next h1 =>
    rw [h1, Nat.add_zero]
    rcases Nat.eq_zero_or_pos s.size with h0 | h0
    · obtain ⟨-, he⟩ := h.2.2.1 h0
      rw [he, h0]
    · exact (Nat.mod_eq_of_lt (h.2.1 h0).2).symm
  · dsimp only
    split
    · next h2 =>
      rw [Nat.mod_add_mod]
      congr 1
      omega
    · next h2 =>
      have h3 : min (min n (getFree s)) (s.size - s.end_) = min n (getFree s) := by
        omega
      rw [h3]

theorem produce_wrap_pos {s : RingBuffer} {n : ℕ} (h : Inv s)
    (hn : 0 < min n (getFree s)) :
    (produce s n).1.wrap = (if s.begin = (produce s n).1.end_ then true else false) := by
  have hwf : s.wrap = false := by
    rcases Bool.eq_false_or_eq_true s.wrap with h' | h'
    · have := getFree_eq_zero_of_wrap h h'
      omega
    · exact h'
  simp only [produce]
  split
  · next h1 => exact absurd h1 (by omega)
  · dsimp only
    rw [hwf]

theorem count_produce {s : RingBuffer} (n : ℕ) (h : Inv s) :
    count (produce s n).1 = count s + min n (getFree s) := by
  rcases Nat.eq_zero_or_pos (min n (getFree s)) with h1 | h1
  · rw [produce_nop h1, h1]; omega
  · have hsz : 0 < s.size := by
      have : getFree s ≤ s.size := Nat.sub_le _ _
      omega
    have hfree : count s + getFree s = s.size := by
      have := count_le h
      unfold getFree
      omega
    have hb : (produce s n).1.begin < (produce s n).1.size := by
      rw [produce_begin, produce_size]
      exact (h.2.1 hsz).1
    refine count_eq_of hb ?_ ?_ ?_
    · rw [produce_size]; omega
    · rw [produce_end n h, produce_begin, produce_size, end_eq h, Nat.mod_add_mod]
      congr 1
      omega
    · rw [produce_wrap_pos h h1]
      rw [produce_end n h, produce_size, end_eq h, Nat.mod_add_mod]
      have h2 : s.begin + count s + min n (getFree s)
          = s.begin + (count s + min n (getFree s)) := by omega
      rw [h2]
      constructor
      · intro hw
        have hw' : s.begin = (s.begin + (count s + min n (getFree s))) % s.size := by
          by_contra hne
          rw [if_neg hne] at hw
          exact Bool.false_ne_true hw
        exact (add_mod_eq_self_iff (h.2.1 hsz).1 (by omega) (by omega)).mp hw'.symm
      · intro hc
        rw [if_pos ((add_mod_eq_self_iff (h.2.1 hsz).1 (by omega) (by omega)).mpr hc).symm]

theorem Inv_produce {s : RingBuffer} (n : ℕ) (h : Inv s) : Inv (produce s n).1 := by
  rcases Nat.eq_zero_or_pos (min n (getFree s)) with h1 | h1
  · rw [produce_nop h1]; exact h
  · have hsz : 0 < s.size := by
      have : getFree s ≤ s.size := Nat.sub_le _ _
      omega
    refine ⟨?_, ?_, ?_, ?_⟩
    · rw [produce_buf, produce_size]; exact h.1
    · intro h0
      rw [produce_begin, produce_size, produce_end n h]
      exact ⟨(h.2.1 hsz).1, Nat.mod_lt _ hsz⟩
    · intro h0
      rw [produce_size] at h0
      omega
    · intro hw
      rw [produce_wrap_pos h h1] at hw
      rw [produce_begin]
      by_contra hne
      rw [if_neg hne] at hw
      exact Bool.false_ne_true hw

theorem consume_nop {s : RingBuffer} {n : ℕ} (h : min n (count s) = 0) :
    (consume s n).1 = s := by
  simp only [consume]
  rw [if_pos h]

theorem consume_begin {s : RingBuffer} (n : ℕ) (h : Inv s) :
    (consume s n).1.begin = (s.begin + min n (count s)) % s.size := by
  simp only [consume]
  split
  · next h1 =>
    rw [h1, Nat.add_zero]
    rcases Nat.eq_zero_or_pos s.size with h0 | h0
    · obtain ⟨hb, -⟩ := h.2.2.1 h0
      rw [hb, h0]
    · exact (Nat.mod_eq_of_lt (h.2.1 h0).1).symm
  · dsimp only
    split
    · next h2 =>
      rw [Nat.mod_add_mod]
      congr 1
      omega
    · next h2 =>
      have h3 : min (min n (count s)) (s.size - s.begin) = min n (count s) := by
        omega
      rw [h3]

theorem consume_wrap_pos {s : RingBuffer} {n : ℕ} (hn : 0 < min n (count s)) :
    (consume s n).1.wrap = false := by
  simp only [consume]
  split
  · next h1 => exact absurd h1 (by omega)
  · rfl

theorem count_consume {s : RingBuffer} (n : ℕ) (h : Inv s) :
    count (consume s n).1 = count s - min n (count s) := by
  rcases Nat.eq_zero_or_pos (min n (count s)) with h1 | h1
  · rw [consume_nop h1, h1]; omega
  · have hsz : 0 < s.size := by
      have := count_le h
      omega
    have hb : (consume s n).1.begin < (consume s n).1.size := by
      rw [consume_begin n h, consume_size]
      exact Nat.mod_lt _ hsz
    refine count_eq_of hb ?_ ?_ ?_
    · rw [consume_size]
      have := count_le h
      omega
    · rw [consume_end, consume_begin n h, consume_size, end_eq h, Nat.mod_add_mod]
      congr 1
      omega
    · rw [consume_wrap_pos h1, consume_size]
      have := count_le h
      constructor
      · intro hw; exact absurd hw (Bool.false_ne_true)
      · intro hc; omega

theorem Inv_consume {s : RingBuffer} (n : ℕ) (h : Inv s) : Inv (consume s n).1 := by
  rcases Nat.eq_zero_or_pos (min n (count s)) with h1 | h1
  · rw [consume_nop h1]; exact h
  · have hsz : 0 < s.size := by
      have := count_le h
      omega
    refine ⟨?_, ?_, ?_, ?_⟩
    · rw [consume_buf, consume_size]; exact h.1
    · intro h0
      rw [consume_begin n h, consume_end, consume_size]
      exact ⟨Nat.mod_lt _ hsz, (h.2.1 hsz).2⟩
    · intro h0
      rw [consume_size] at h0
      omega
    · intro hw
      rw [consume_wrap_pos h1] at hw
      exact absurd hw Bool.false_ne_true

theorem Inv_reset {s : RingBuffer} (h : Inv s) : Inv (reset s) :=
  Inv_consume _ h

theorem Inv_fresh (n : ℕ) : Inv (fresh n) := by
  refine ⟨?_, ?_, ?_, ?_⟩ <;> simp [fresh]

theorem count_fresh (n : ℕ) : count (fresh n) = 0 := by
  simp [count, fresh]

theorem overwriteAt_length (xs l : List ℚ) (i : ℕ) :
    (overwriteAt l i xs).length = l.length := by
  induction xs generalizing l i with
  | nil => rfl
  | cons x xs ih =>
    rw [overwriteAt, ih]
    simp

/-- Slots outside the written range are untouched by `overwriteAt`. -/
theorem overwriteAt_getD_notin (xs : List ℚ) (l : List ℚ) (i j : ℕ) (d : ℚ)
    (h : ∀ u, u < xs.length → j ≠ i + u) :
    (overwriteAt l i xs).getD j d = l.getD j d := by
  induction xs generalizing l i with
  | nil => rfl
  | cons x xs ih =>
    rw [overwriteAt]
    rw [ih (l.set i x) (i + 1) ?_]
    · have hj : j ≠ i := by
        have := h 0 (by simp)
        omega
      rw [List.getD_eq_getElem?_getD, List.getElem?_set_ne (by omega),
        ← List.getD_eq_getElem?_getD]
    · intro u hu
      have := h (u + 1) (by simp; omega)
      omega

/-- Slots inside the written range receive the corresponding element. -/
theorem overwriteAt_getD_at (xs : List ℚ) (l : List ℚ) (i u : ℕ) (d : ℚ)
    (hu : u < xs.length) (hl : i + u < l.length) :
    (overwriteAt l i xs).getD (i + u) d = xs.getD u d := by
  induction xs generalizing l i u with
  | nil => simp at hu
  | cons x xs ih =>
    rw [overwriteAt]
    cases u with
    | zero =>
      rw [overwriteAt_getD_notin xs (l.set i x) (i + 1) (i + 0) d
        (by intro v hv; omega)]
      simp only [Nat.add_zero]
      rw [List.getD_eq_getElem?_getD,
        List.getElem?_set_eq_of_lt x (by simpa using hl)]
      rfl
    | succ u' =>
      have h2 : i + (u' + 1) = (i + 1) + u' := by omega
      rw [h2, ih (l.set i x) (i + 1) u' (by simpa using hu) (by simp; omega)]
      rfl

/-- A `memcpy` out of consecutive slots, as a map over the slot offsets. -/
theorem take_drop_eq_map_range (l : List ℚ) (i k : ℕ) (h : i + k ≤ l.length) :
    (l.drop i).take k = (List.range k).map fun u => l.getD (i + u) 0 := by
  apply List.ext_getElem
  · simp
    omega
  · intro n h1 h2
    have hn : n < k := by simpa using h2
    have hin : i + n < l.length := by omega
    simp only [List.getElem_take, List.getElem_drop, List.getElem_map,
      List.getElem_range]
    rw [List.getD_eq_getElem?_getD, List.getElem?_eq_getElem hin]
    rfl

theorem map_range_congr {c : ℕ} {f g : ℕ → ℚ} (h : ∀ i, i < c → f i = g i) :
    (List.range c).map f = (List.range c).map g := by
  apply List.map_congr_left
  intro a ha
  exact h a (List.mem_range.mp ha)

theorem eq_map_range_getD (l : List ℚ) :
    (List.range l.length).map (fun u => l.getD u 0) = l := by
  apply List.ext_getElem
  · simp
  · intro n h1 h2
    simp only [List.getElem_map, List.getElem_range]
    rw [List.getD_eq_getElem?_getD, List.getElem?_eq_getElem h2]
    rfl

theorem toList_length (s : RingBuffer) : (toList s).length = count s := by
  simp [toList]

theorem toList_fresh (n : ℕ) : toList (fresh n) = [] := by
  rw [toList, count_fresh]
  rfl

/-- `consume` drops the oldest `min n count` elements of the logical
contents. -/
theorem toList_consume {s : RingBuffer} (n : ℕ) (h : Inv s) :
    toList (consume s n).1 = (toList s).drop (min n (count s)) := by
  rcases Nat.eq_zero_or_pos (min n (count s)) with h1 | h1
  · rw [consume_nop h1, h1, List.drop_zero]
  · have hsz : 0 < s.size := by
      have := count_le h
      omega
    unfold toList
    simp only [count_consume n h, consume_begin n h, consume_size, consume_buf]
    have hsplit : count s = min n (count s) + (count s - min n (count s)) := by omega
    conv_rhs => rw [hsplit, List.range_add, List.map_append]
    rw [List.drop_left' (by simp), List.map_map]
    apply map_range_congr
    intro i hi
    simp only [Function.comp_apply]
    rw [Nat.mod_add_mod]
    congr 2
    omega

/-- `produce` extends the logical contents (with whatever stale values sit in
the newly exposed slots): the old contents stay an initial run. -/
theorem toList_produce {s : RingBuffer} (n : ℕ) (h : Inv s) :
    toList (produce s n).1 = toList s ++
      ((List.range (min n (getFree s))).map fun i =>
        s.buf.getD ((s.begin + (count s + i)) % s.size) 0) := by
  unfold toList
  simp only [count_produce n h, produce_begin, produce_size, produce_buf]
  rw [List.range_add, List.map_append, List.map_map]
  congr 1

theorem read_nop {s : RingBuffer} {n : ℕ} (h : min n (count s) = 0) :
    (read s n).1 = s := by
  simp only [read]
  rw [if_pos h]

theorem read_begin {s : RingBuffer} (n : ℕ) (h : Inv s) :
    (read s n).1.begin = (s.begin + min n (count s)) % s.size := by
  simp only [read]
  split
  · next h1 =>
    rw [h1, Nat.add_zero]
    rcases Nat.eq_zero_or_pos s.size with h0 | h0
    · obtain ⟨hb, -⟩ := h.2.2.1 h0
      rw [hb, h0]
    · exact (Nat.mod_eq_of_lt (h.2.1 h0).1).symm
  · split
    · next h2 =>
      dsimp only
      rw [Nat.mod_add_mod]
      congr 1
      omega
    · next h2 =>
      dsimp only
      have h3 : min (min n (count s)) (s.size - s.begin) = min n (count s) := by
        omega
      rw [h3]

theorem read_wrap_pos {s : RingBuffer} {n : ℕ} (hn : 0 < min n (count s)) :
    (read s n).1.wrap = false := by
  simp only [read]
  split
  · next h1 => exact absurd h1 (by omega)
  · split <;> rfl

theorem Inv_read {s : RingBuffer} (n : ℕ) (h : Inv s) : Inv (read s n).1 := by
  rcases Nat.eq_zero_or_pos (min n (count s)) with h1 | h1
  · rw [read_nop h1]; exact h
  · have hsz : 0 < s.size := by
      have := count_le h
      omega
    refine ⟨?_, ?_, ?_, ?_⟩
    · rw [read_buf, read_size]; exact h.1
    · intro h0
      rw [read_begin n h, read_end, read_size]
      exact ⟨Nat.mod_lt _ hsz, (h.2.1 hsz).2⟩
    · intro h0
      rw [read_size] at h0
      omega
    · intro hw
      rw [read_wrap_pos h1] at hw
      exact absurd hw Bool.false_ne_true

/-- `read` copies out the oldest `min n count` logical elements, in order. -/
theorem read_out {s : RingBuffer} (n : ℕ) (h : Inv s) :
    (read s n).2.1 = (toList s).take (min n (count s)) := by
  rcases Nat.eq_zero_or_pos (min n (count s)) with h1 | h1
  · simp only [read]
    rw [if_pos h1, h1, List.take_zero]
  · have hsz : 0 < s.size := by
      have := count_le h
      omega
    have hcle := count_le h
    obtain ⟨hbuf, hpos, -, -⟩ := h
    obtain ⟨hb, he⟩ := hpos hsz
    have htake : (toList s).take (min n (count s))
        = (List.range (min n (count s))).map
            fun i => s.buf.getD ((s.begin + i) % s.size) 0 := by
      unfold toList
      rw [← List.map_take, List.take_range, Nat.min_eq_left (Nat.min_le_right _ _)]
    rw [htake]
    simp only [read]
    rw [if_neg (by omega)]
    split
    · next hlt =>
      -- the copy wraps: first chunk reaches the physical tail, second starts at 0
      dsimp only
      have hfc : min (min n (count s)) (s.size - s.begin) = s.size - s.begin := by
        omega
      rw [hfc] at hlt ⊢
      have hsc : min n (count s) - (s.size - s.begin) ≤ s.begin := by omega
      have hb1 : (s.begin + (s.size - s.begin)) % s.size = 0 := by
        have h2 : s.begin + (s.size - s.begin) = s.size := by omega
        rw [h2, Nat.mod_self]
      rw [hb1]
      conv_rhs => rw [show min n (count s)
          = (s.size - s.begin) + (min n (count s) - (s.size - s.begin)) by omega,
        List.range_add, List.map_append]
      rw [take_drop_eq_map_range s.buf s.begin (s.size - s.begin) (by omega),
        take_drop_eq_map_range s.buf 0
          (min n (count s) - (s.size - s.begin)) (by omega),
        List.map_map]
      congr 1
      · apply map_range_congr
        intro u hu
        rw [Nat.mod_eq_of_lt (by omega)]
      · apply map_range_congr
        intro u hu
        simp only [Function.comp_apply, Nat.zero_add]
        have h3 : s.begin + (s.size - s.begin + u) = s.size + u := by omega
        rw [h3, Nat.add_mod_left, Nat.mod_eq_of_lt (by omega)]
    · next hge =>
      -- single contiguous copy
      dsimp only
      have hfc : min (min n (count s)) (s.size - s.begin) = min n (count s) := by
        omega
      rw [hfc]
      rw [take_drop_eq_map_range s.buf s.begin (min n (count s)) (by omega)]
      apply map_range_congr
      intro u hu
      rw [Nat.mod_eq_of_lt (by omega)]

theorem write_nop {s : RingBuffer} {data : List ℚ} {n : ℕ}
    (h : min n (getFree s) = 0) : (write s data n).1 = s := by
  simp only [write]
  rw [if_pos h]

theorem write_end {s : RingBuffer} (data : List ℚ) (n : ℕ) (h : Inv s) :
    (write s data n).1.end_ = (s.end_ + min n (getFree s)) % s.size := by
  simp only [write]
  split
  · next h1 =>
    rw [h1, Nat.add_zero]
    rcases Nat.eq_zero_or_pos s.size with h0 | h0
    · obtain ⟨-, he⟩ := h.2.2.1 h0
      rw [he, h0]
    · exact (Nat.mod_eq_of_lt (h.2.1 h0).2).symm
  · split
    · next h2 =>
      dsimp only
      rw [Nat.mod_add_mod]
      congr 1
      omega
    · next h2 =>
      dsimp only
      have h3 : min (min n (getFree s)) (s.size - s.end_) = min n (getFree s) := by
        omega
      rw [h3]

theorem write_wrap_pos {s : RingBuffer} {data : List ℚ} {n : ℕ} (h : Inv s)
    (hn : 0 < min n (getFree s)) :
    (write s data n).1.wrap
      = (if s.begin = (write s data n).1.end_ then true else false) := by
  have hwf : s.wrap = false := by
    rcases Bool.eq_false_or_eq_true s.wrap with h' | h'
    · have := getFree_eq_zero_of_wrap h h'
      omega
    · exact h'
  simp only [write]
  split
  · next h1 => exact absurd h1 (by omega)
  · split
    · dsimp only
      rw [hwf]
    · dsimp only
      rw [hwf]

theorem write_buf_length (s : RingBuffer) (data : List ℚ) (n : ℕ) :
    (write s data n).1.buf.length = s.buf.length := by
  simp only [write]
  split
  · rfl
  · split
    · dsimp only
      rw [overwriteAt_length, overwriteAt_length]
    · dsimp only
      rw [overwriteAt_length]

theorem count_write {s : RingBuffer} (data : List ℚ) (n : ℕ) (h : Inv s) :
    count (write s data n).1 = count s + min n (getFree s) := by
  rcases Nat.eq_zero_or_pos (min n (getFree s)) with h1 | h1
  · rw [write_nop h1, h1]; omega
  · have hsz : 0 < s.size := by
      have : getFree s ≤ s.size := Nat.sub_le _ _
      omega
    have hfree : count s + getFree s = s.size := by
      have := count_le h
      unfold getFree
      omega
    have hb : (write s data n).1.begin < (write s data n).1.size := by
      rw [write_begin, write_size]
      exact (h.2.1 hsz).1
    refine count_eq_of hb ?_ ?_ ?_
    · rw [write_size]; omega
    · rw [write_end data n h, write_begin, write_size, end_eq h, Nat.mod_add_mod]
      congr 1
      omega
    · rw [write_wrap_pos h h1]
      rw [write_end data n h, write_size, end_eq h, Nat.mod_add_mod]
      have h2 : s.begin + count s + min n (getFree s)
          = s.begin + (count s + min n (getFree s)) := by omega
      rw [h2]
      constructor
      · intro hw
        have hw' : s.begin
            = (s.begin + (count s + min n (getFree s))) % s.size := by
          by_contra hne
          rw [if_neg hne] at hw
          exact Bool.false_ne_true hw
        exact (add_mod_eq_self_iff (h.2.1 hsz).1 (by omega) (by omega)).mp hw'.symm
      · intro hc
        rw [if_pos
          ((add_mod_eq_self_iff (h.2.1 hsz).1 (by omega) (by omega)).mpr hc).symm]

theorem Inv_write {s : RingBuffer} (data : List ℚ) (n : ℕ) (h : Inv s) :
    Inv (write s data n).1 := by
  rcases Nat.eq_zero_or_pos (min n (getFree s)) with h1 | h1
  · rw [write_nop h1]; exact h
  · have hsz : 0 < s.size := by
      have : getFree s ≤ s.size := Nat.sub_le _ _
      omega
    refine ⟨?_, ?_, ?_, ?_⟩
    · rw [write_buf_length, write_size]
      exact h.1
    · intro h0
      rw [write_begin, write_size, write_end data n h]
      exact ⟨(h.2.1 hsz).1, Nat.mod_lt _ hsz⟩
    · intro h0
      rw [write_size] at h0
      omega
    · intro hw
      rw [write_wrap_pos h h1] at hw
      rw [write_begin]
      by_contra hne
      rw [if_neg hne] at hw
      exact Bool.false_ne_true hw

/-- `write` never touches the slots holding the occupied elements. -/
theorem write_getD_old {s : RingBuffer} {data : List ℚ} {n j : ℕ} (h : Inv s)
    (hj : j < count s) :
    (write s data n).1.buf.getD ((s.begin + j) % s.size) 0
      = s.buf.getD ((s.begin + j) % s.size) 0 := by
  rcases Nat.eq_zero_or_pos (min n (getFree s)) with h1 | h1
  · rw [write_nop h1]
  · have hsz : 0 < s.size := by
      have : getFree s ≤ s.size := Nat.sub_le _ _
      omega
    have hcle := count_le h
    have hfree : count s + getFree s = s.size := by
      unfold getFree
      omega
    have hee := end_eq h
    obtain ⟨hbuf, hpos, -, -⟩ := h
    obtain ⟨hb, he⟩ := hpos hsz
    have hjs : j < s.size := by omega
    have hkey : ∀ u, u < min n (getFree s) →
        (s.begin + j) % s.size ≠ (s.end_ + u) % s.size := by
      intro u hu hcontra
      have h2 : (s.end_ + u) % s.size = (s.begin + (count s + u)) % s.size := by
        rw [hee, Nat.mod_add_mod, Nat.add_assoc]
      rw [h2] at hcontra
      have := mod_add_inj hjs (by omega) hcontra
      omega
    simp only [write]
    rw [if_neg (by omega)]
    split
    · next hlt =>
      dsimp only
      have hfc : min (min n (getFree s)) (s.size - s.end_) = s.size - s.end_ := by
        omega
      rw [hfc] at hlt ⊢
      have he1 : (s.end_ + (s.size - s.end_)) % s.size = 0 := by
        have h2 : s.end_ + (s.size - s.end_) = s.size := by omega
        rw [h2, Nat.mod_self]
      rw [he1]
      have hnotin2 : ∀ u,
          u < ((data.drop (s.size - s.end_)).take
            (min n (getFree s) - (s.size - s.end_))).length →
          (s.begin + j) % s.size ≠ 0 + u := by
        intro u hu
        have hu' : u < min n (getFree s) - (s.size - s.end_) := by
          have := List.length_take_le
            (min n (getFree s) - (s.size - s.end_)) (data.drop (s.size - s.end_))
          omega
        have hux : 0 + u = (s.end_ + ((s.size - s.end_) + u)) % s.size := by
          have h3 : s.end_ + ((s.size - s.end_) + u) = s.size + u := by omega
          rw [h3, Nat.add_mod_left, Nat.mod_eq_of_lt (by omega), Nat.zero_add]
        rw [hux]
        exact hkey _ (by omega)
      have hnotin1 : ∀ u, u < (data.take (s.size - s.end_)).length →
          (s.begin + j) % s.size ≠ s.end_ + u := by
        intro u hu
        have hu' : u < s.size - s.end_ := by
          have := List.length_take_le (s.size - s.end_) data
          omega
        have hux : s.end_ + u = (s.end_ + u) % s.size :=
          (Nat.mod_eq_of_lt (by omega)).symm
        rw [hux]
        exact hkey _ (by omega)
      rw [overwriteAt_getD_notin _ _ _ _ _ hnotin2,
        overwriteAt_getD_notin _ _ _ _ _ hnotin1]
    · next hge =>
      dsimp only
      have hfc : min (min n (getFree s)) (s.size - s.end_) = min n (getFree s) := by
        omega
      rw [hfc]
      have hnotin1 : ∀ u, u < (data.take (min n (getFree s))).length →
          (s.begin + j) % s.size ≠ s.end_ + u := by
        intro u hu
        have hu' : u < min n (getFree s) := by
          have := List.length_take_le (min n (getFree s)) data
          omega
        have hux : s.end_ + u = (s.end_ + u) % s.size :=
          (Nat.mod_eq_of_lt (by omega)).symm
        rw [hux]
        exact hkey _ hu'
      rw [overwriteAt_getD_notin _ _ _ _ _ hnotin1]

/-- `write` places element `t` of the accepted input at logical position
`count + t`. -/
theorem write_getD_new {s : RingBuffer} {data : List ℚ} {n t : ℕ} (h : Inv s)
    (hlen : min n (getFree s) ≤ data.length) (ht : t < min n (getFree s)) :
    (write s data n).1.buf.getD ((s.begin + (count s + t)) % s.size) 0
      = data.getD t 0 := by
  have h1 : 0 < min n (getFree s) := by omega
  have hsz : 0 < s.size := by
    have : getFree s ≤ s.size := Nat.sub_le _ _
    omega
  have hcle := count_le h
  have hfree : count s + getFree s = s.size := by
    unfold getFree
    omega
  have hee := end_eq h
  obtain ⟨hbuf, hpos, -, -⟩ := h
  obtain ⟨hb, he⟩ := hpos hsz
  have hpos_eq : (s.begin + (count s + t)) % s.size = (s.end_ + t) % s.size := by
    rw [hee, Nat.mod_add_mod, Nat.add_assoc]
  rw [hpos_eq]
  simp only [write]
  rw [if_neg (by omega)]
  split
  · next hlt =>
    dsimp only
    have hfc : min (min n (getFree s)) (s.size - s.end_) = s.size - s.end_ := by
      omega
    rw [hfc] at hlt ⊢
    have he1 : (s.end_ + (s.size - s.end_)) % s.size = 0 := by
      have h2 : s.end_ + (s.size - s.end_) = s.size := by omega
      rw [h2, Nat.mod_self]
    rw [he1]
    have hsc : min n (getFree s) - (s.size - s.end_) ≤ s.end_ := by omega
    have hd1len : (data.take (s.size - s.end_)).length = s.size - s.end_ := by
      simp
      omega
    have hd2len : ((data.drop (s.size - s.end_)).take
        (min n (getFree s) - (s.size - s.end_))).length
        = min n (getFree s) - (s.size - s.end_) := by
      simp
      omega
    rcases Nat.lt_or_ge t (s.size - s.end_) with htf | htf
    · have hpos2 : (s.end_ + t) % s.size = s.end_ + t :=
        Nat.mod_eq_of_lt (by omega)
      rw [hpos2]
      rw [overwriteAt_getD_notin _ _ _ _ _ (by
        intro u hu
        rw [hd2len] at hu
        omega)]
      rw [overwriteAt_getD_at _ _ _ _ _ (by rw [hd1len]; exact htf)
        (by rw [hbuf]; omega)]
      rw [List.getD_eq_getElem?_getD, List.getElem?_take, if_pos htf,
        ← List.getD_eq_getElem?_getD]
    · have hpos2 : (s.end_ + t) % s.size = t - (s.size - s.end_) := by
        have h2 : s.end_ + t = s.size + (t - (s.size - s.end_)) := by omega
        rw [h2, Nat.add_mod_left, Nat.mod_eq_of_lt (by omega)]
      rw [hpos2]
      rw [show t - (s.size - s.end_) = 0 + (t - (s.size - s.end_)) from by omega]
      rw [overwriteAt_getD_at _ _ 0 (t - (s.size - s.end_)) 0
        (by rw [hd2len]; omega)
        (by rw [overwriteAt_length, hbuf]; omega)]
      rw [List.getD_eq_getElem?_getD, List.getElem?_take, if_pos (by omega),
        List.getElem?_drop, ← List.getD_eq_getElem?_getD]
      congr 1
      omega
  · next hge =>
    dsimp only
    have hfc : min (min n (getFree s)) (s.size - s.end_) = min n (getFree s) := by
      omega
    rw [hfc]
    have hpos2 : (s.end_ + t) % s.size = s.end_ + t :=
      Nat.mod_eq_of_lt (by omega)
    rw [hpos2]
    rw [overwriteAt_getD_at _ _ _ _ _ (by simp; omega) (by rw [hbuf]; omega)]
    rw [List.getD_eq_getElem?_getD, List.getElem?_take, if_pos ht,
      ← List.getD_eq_getElem?_getD]

/-- `write` appends the accepted elements of the input onto the logical
contents. -/
theorem toList_write {s : RingBuffer} (data : List ℚ) (n : ℕ) (h : Inv s)
    (hlen : min n (getFree s) ≤ data.length) :
    toList (write s data n).1 = toList s ++ data.take (min n (getFree s)) := by
  unfold toList
  simp only [count_write data n h, write_begin, write_size]
  rw [List.range_add, List.map_append]
  congr 1
  · apply map_range_congr
    intro i hi
    exact write_getD_old h hi
  · rw [List.map_map]
    have htake : data.take (min n (getFree s))
        = (List.range (min n (getFree s))).map fun u => data.getD (0 + u) 0 := by
      rw [← take_drop_eq_map_range data 0 (min n (getFree s)) (by omega),
        List.drop_zero]
    rw [htake]
    apply map_range_congr
    intro i hi
    simp only [Function.comp_apply, Nat.zero_add]
    exact write_getD_new h hlen hi

/-- Whatever the input, `write` only ever appends: the old logical contents
survive as an initial run. -/
theorem write_keeps {s : RingBuffer} (data : List ℚ) (n : ℕ) (h : Inv s) :
    ∃ tl, toList s ++ tl = toList (write s data n).1 := by
  refine ⟨(List.range (min n (getFree s))).map
    (fun i => (write s data n).1.buf.getD ((s.begin + (count s + i)) % s.size) 0),
    ?_⟩
  unfold toList
  simp only [count_write data n h, write_begin, write_size]
  rw [List.range_add, List.map_append, List.map_map]
  congr 1
  apply map_range_congr
  intro i hi
  exact (write_getD_old h hi).symm

theorem produce_keeps {s : RingBuffer} (n : ℕ) (h : Inv s) :
    ∃ tl, toList s ++ tl = toList (produce s n).1 :=
  ⟨_, (toList_produce n h).symm⟩

/-- On a full positive-capacity buffer, `push` behaves exactly as `consume(1)`
followed by a (now non-evicting) `push`. -/
theorem push_full_eq {s : RingBuffer} (v : ℚ) (h : Inv s) (hsz : 0 < s.size)
    (hf : count s = s.size) : push s v = push ((consume s 1).1) v := by
  have hc1 : count (consume s 1).1 = count s - 1 := by
    rw [count_consume 1 h]
    omega
  have hne : ¬(count (consume s 1).1 = (consume s 1).1.size) := by
    rw [hc1, consume_size]
    omega
  simp only [push, hf, hne, eq_self_iff_true, if_true, if_false, ite_true,
    ite_false]

theorem toList_push_not_full {s : RingBuffer} (v : ℚ) (h : Inv s)
    (hsz : 0 < s.size) (hnf : count s < s.size) :
    toList (push s v) = toList s ++ [v] := by
  have hne : count s ≠ s.size := by omega
  have hwf : s.wrap = false := by
    rcases Bool.eq_false_or_eq_true s.wrap with h' | h'
    · exact absurd ((count_eq_size_iff h hsz).mpr h') hne
    · exact h'
  have hee := end_eq h
  have hb := (h.2.1 hsz).1
  have he := (h.2.1 hsz).2
  have hbuf := h.1
  have hmin : min 1 (s.size - s.end_) = 1 := by omega
  have hpv : push s v = { s with
      buf := s.buf.set s.end_ v,
      end_ := (s.end_ + 1) % s.size,
      wrap := if s.begin = (s.end_ + 1) % s.size then true else s.wrap } := by
    simp only [push]
    rw [if_neg hne, hmin]
  have hend' : (s.end_ + 1) % s.size = (s.begin + (count s + 1)) % s.size := by
    rw [hee, Nat.mod_add_mod, Nat.add_assoc]
  have hcount' : count { s with
      buf := s.buf.set s.end_ v,
      end_ := (s.end_ + 1) % s.size,
      wrap := if s.begin = (s.end_ + 1) % s.size then true else s.wrap }
      = count s + 1 := by
    refine count_eq_of hb (show count s + 1 ≤ s.size by omega) ?_ ?_
    · exact hend'
    · rw [hwf, hend']
      constructor
      · intro hw
        have hw' : s.begin = (s.begin + (count s + 1)) % s.size := by
          by_contra hne2
          rw [if_neg hne2] at hw
          exact Bool.false_ne_true hw
        exact (add_mod_eq_self_iff hb (by omega) (by omega)).mp hw'.symm
      · intro hc
        rw [if_pos ((add_mod_eq_self_iff hb (by omega) (by omega)).mpr hc).symm]
  rw [hpv]
  unfold toList
  rw [hcount', List.range_succ, List.map_append]
  dsimp only
  congr 1
  · apply map_range_congr
    intro i hi
    have hne2 : s.end_ ≠ (s.begin + i) % s.size := by
      intro hcon
      rw [hee] at hcon
      have := mod_add_inj (i := count s) (by omega) (by omega) hcon
      omega
    rw [List.getD_eq_getElem?_getD, List.getElem?_set_ne hne2,
      ← List.getD_eq_getElem?_getD]
  · simp only [List.map_cons, List.map_nil]
    rw [← hee]
    rw [List.getD_eq_getElem?_getD,
      List.getElem?_set_eq_of_lt v (by rw [hbuf]; omega)]
    rfl

/-- `push` appends the value, evicting the oldest element exactly when the
buffer was full. -/
theorem toList_push {s : RingBuffer} (v : ℚ) (h : Inv s) (hsz : 0 < s.size) :
    toList (push s v)
      = (if count s = s.size then (toList s).drop 1 else toList s) ++ [v] := by
  rcases eq_or_ne (count s) s.size with hf | hnf
  · rw [if_pos hf, push_full_eq v h hsz hf]
    have h1 := Inv_consume 1 h
    have hc1 : count (consume s 1).1 = count s - 1 := by
      rw [count_consume 1 h]
      omega
    rw [toList_push_not_full v h1 (by rw [consume_size]; omega)
      (by rw [hc1, consume_size]; omega)]
    rw [toList_consume 1 h, show min 1 (count s) = 1 from by omega]
  · rw [if_neg hnf]
    exact toList_push_not_full v h hsz (by have := count_le h; omega)

theorem Inv_push_aux {s1 : RingBuffer} (v : ℚ) (h1 : Inv s1)
    (hc1 : count s1 < s1.size ∨ s1.size = 0) :
    Inv { s1 with
      buf := s1.buf.set s1.end_ v,
      end_ := (s1.end_ + min 1 (s1.size - s1.end_)) % s1.size,
      wrap := if s1.begin = (s1.end_ + min 1 (s1.size - s1.end_)) % s1.size
        then true else s1.wrap } := by
  rcases Nat.eq_zero_or_pos s1.size with h0 | h0
  · obtain ⟨hbuf, -, hzero, -⟩ := h1
    obtain ⟨hb, he⟩ := hzero h0
    refine ⟨?_, ?_, ?_, ?_⟩
    · simp [hbuf]
    · intro hx
      dsimp only at hx
      omega
    · intro _
      dsimp only
      rw [hb, he, h0]
      exact ⟨rfl, by decide⟩
    · intro _
      dsimp only
      rw [hb, he, h0]
      decide
  · have hcc : count s1 < s1.size := by omega
    have hwf : s1.wrap = false := by
      rcases Bool.eq_false_or_eq_true s1.wrap with h' | h'
      · exact absurd ((count_eq_size_iff h1 h0).mpr h') (by omega)
      · exact h'
    have hb1 := (h1.2.1 h0).1
    have he1 := (h1.2.1 h0).2
    have hmin : min 1 (s1.size - s1.end_) = 1 := by omega
    rw [hmin]
    refine ⟨?_, ?_, ?_, ?_⟩
    · simp [h1.1]
    · intro _
      exact ⟨hb1, Nat.mod_lt _ h0⟩
    · intro hx
      dsimp only at hx
      omega
    · intro hw
      dsimp only at hw ⊢
      by_cases hbe : s1.begin = (s1.end_ + 1) % s1.size
      · exact hbe
      · rw [if_neg hbe, hwf] at hw
        exact absurd hw Bool.false_ne_true

theorem Inv_push {s : RingBuffer} (v : ℚ) (h : Inv s) : Inv (push s v) := by
  have h1 : Inv (if count s = s.size then (consume s 1).1 else s) := by
    split
    · exact Inv_consume 1 h
    · exact h
  have hc1 : count (if count s = s.size then (consume s 1).1 else s)
      < (if count s = s.size then (consume s 1).1 else s).size
      ∨ (if count s = s.size then (consume s 1).1 else s).size = 0 := by
    split
    · next hful =>
      rw [count_consume 1 h, consume_size]
      rcases Nat.eq_zero_or_pos s.size with h0 | h0
      · right; exact h0
      · left; omega
    · next hnful =>
      have := count_le h
      left
      omega
  exact Inv_push_aux v h1 hc1

theorem reachable_inv {s : RingBuffer} (h : Reachable s) : Inv s := by
  induction h with
  | fresh n => exact Inv_fresh n
  | push s v _ ih => exact Inv_push v ih
  | write s data n _ ih => exact Inv_write data n ih
  | read s n _ ih => exact Inv_read n ih
  | produce s n _ ih => exact Inv_produce n ih
  | consume s n _ ih => exact Inv_consume n ih
  | reset s _ ih => exact Inv_reset ih

/-- Pushing a whole list leaves the most recent `capacity` of old-contents ++
pushed-values. -/
theorem toList_foldl_push {s : RingBuffer} (vs : List ℚ) (h : Inv s)
    (hsz : 0 < s.size) :
    toList (List.foldl push s vs)
      = (toList s ++ vs).drop ((toList s ++ vs).length - s.size) := by
  induction vs generalizing s with
  | nil =>
    simp only [List.foldl_nil, List.append_nil]
    have h2 : (toList s).length - s.size = 0 := by
      rw [toList_length]
      have := count_le h
      omega
    rw [h2, List.drop_zero]
  | cons v vs ih =>
    rw [List.foldl_cons]
    rw [ih (Inv_push v h) (by rw [push_size]; exact hsz)]
    rw [push_size]
    rcases eq_or_ne (count s) s.size with hf | hnf
    · rw [toList_push v h hsz, if_pos hf]
      have hlen : (toList s).length = s.size := by rw [toList_length, hf]
      obtain ⟨a, t, hat⟩ : ∃ a t, toList s = a :: t := by
        cases hx : toList s with
        | nil =>
          rw [hx] at hlen
          simp at hlen
          omega
        | cons a t => exact ⟨a, t, rfl⟩
      rw [hat]
      have hlt : t.length = s.size - 1 := by
        rw [hat] at hlen
        simp at hlen
        omega
      have e3 : (t ++ [v]) ++ vs = t ++ v :: vs := by simp
      have e4 : ((a :: t) ++ v :: vs) = a :: (t ++ v :: vs) := rfl
      rw [List.drop_one, List.tail_cons, e3, e4]
      have e5 : (a :: (t ++ v :: vs)).length - s.size
          = ((t ++ v :: vs).length - s.size) + 1 := by
        simp
        omega
      rw [e5, List.drop_succ_cons]
    · rw [toList_push v h hsz, if_neg hnf]
      have e3 : (toList s ++ [v]) ++ vs = toList s ++ v :: vs := by simp
      rw [e3]

/-- Claim C5: pushing `capacity + k` values into any well-formed
positive-capacity buffer leaves exactly the last `capacity` pushed values,
oldest to newest (here expressed as `vs.drop k`); `push` on a full buffer is
`consume(1)` followed by a non-evicting push, so it evicts exactly the single
oldest element; and `write`/`produce` never evict — the old logical contents
survive as an initial run of the new contents. -/
theorem push_fifo_spec (k n : ℕ) (vs data : List ℚ) (s : RingBuffer)
    (v : ℚ) (hsz : 0 < s.size) (hlen : vs.length = s.size + k) (h : Inv s) :
    toList (List.foldl push s vs) = vs.drop k ∧
    (count s = s.size →
      push s v = push ((consume s 1).1) v ∧
      toList (push s v) = (toList s).drop 1 ++ [v]) ∧
    (∃ tl, toList s ++ tl = toList ((write s data n).1)) ∧
    (∃ tl, toList s ++ tl = toList ((produce s n).1)) := by
  refine ⟨?_, fun hf => ⟨push_full_eq v h hsz hf, ?_⟩,
    write_keeps data n h, produce_keeps n h⟩
  · have h1 := toList_foldl_push vs h hsz
    rw [h1]
    have e : (toList s ++ vs).length - s.size = count s + k := by
      rw [List.length_append, toList_length, hlen]
      have := count_le h
      omega
    rw [e, ← List.drop_drop, List.drop_left' (toList_length s)]
  · rw [toList_push v h hsz, if_pos hf]

/-- Witness for C5 at capacity 2, pushing 1,2,3. -/
theorem push_fifo_spec_witness :
    toList (List.foldl push (fresh 2) [1, 2, 3]) = [(1 : ℚ), 2, 3].drop 1 ∧
    (count (fresh 2) = (fresh 2).size →
      push (fresh 2) 7 = push ((consume (fresh 2) 1).1) 7 ∧
      toList (push (fresh 2) 7) = (toList (fresh 2)).drop 1 ++ [7]) ∧
    (∃ tl, toList (fresh 2) ++ tl = toList ((write (fresh 2) [4] 1).1)) ∧
    (∃ tl, toList (fresh 2) ++ tl = toList ((produce (fresh 2) 1).1)) :=
  push_fifo_spec 1 1 [1, 2, 3] [4] (fresh 2) 7 (by decide) (by decide)
    (by decide)

/-- Claim C6: on an empty buffer of sufficient capacity, `write(data, n)`
followed by `read(dest, n)` returns `n` from both calls and reads back exactly
the written data.  This holds for every well-formed empty state, including
wrapped-around empty states with `begin = end ≠ 0`. -/
theorem write_read_roundtrip (s : RingBuffer) (data : List ℚ) (n : ℕ)
    (h : Inv s) (hempty : count s = 0) (hn : n ≤ s.size)
    (hlen : data.length = n) :
    (write s data n).2 = n ∧
    (read (write s data n).1 n).2.2 = n ∧
    (read (write s data n).1 n).2.1 = data := by
  have hfree : getFree s = s.size := by
    unfold getFree
    omega
  have hmin : min n (getFree s) = n := by omega
  have hw := Inv_write data n h
  have hcw : count (write s data n).1 = n := by
    rw [count_write data n h, hempty, hmin]
    omega
  have hmin2 : min n (count (write s data n).1) = n := by
    rw [hcw]
    omega
  refine ⟨?_, ?_, ?_⟩
  · rw [write_ret, hmin]
  · rw [read_ret, hmin2]
  · rw [read_out n hw, hmin2, toList_write data n h (by omega), hmin]
    have hts : toList s = [] := by
      unfold toList
      rw [hempty]
      rfl
    rw [hts, List.nil_append, List.take_take, Nat.min_self, ← hlen,
      List.take_length]

/-- Witness for C6 on a fresh capacity-2 buffer and data `[3, 7]`. -/
theorem write_read_roundtrip_witness :
    (write (fresh 2) [3, 7] 2).2 = 2 ∧
    (read (write (fresh 2) [3, 7] 2).1 2).2.2 = 2 ∧
    (read (write (fresh 2) [3, 7] 2).1 2).2.1 = [3, 7] :=
  write_read_roundtrip (fresh 2) [3, 7] 2 (by decide) (by decide) (by decide)
    (by decide)

/-- Claim C7: on every reachable state, `count() + getFree() == capacity` and
`count()` never exceeds the capacity (it can never be negative: it is a
`size_t`, modelled by `ℕ`). -/
theorem count_getFree_invariant (s : RingBuffer) (h : Reachable s) :
    count s + getFree s = s.size ∧ count s ≤ s.size := by
  have hInv := reachable_inv h
  have hle := count_le hInv
  unfold getFree
  exact ⟨by omega, hle⟩

/-- Witness for C7 at the state reached by one push into a fresh capacity-2
buffer. -/
theorem count_getFree_invariant_witness :
    count (push (fresh 2) 3) + getFree (push (fresh 2) 3)
      = (push (fresh 2) 3).size ∧
    count (push (fresh 2) 3) ≤ (push (fresh 2) 3).size :=
  count_getFree_invariant _ (Reachable.push _ 3 (Reachable.fresh 2))

/-- Claim C8 (amended): `produce` advances `end` by exactly
`min n freeCount` modulo the capacity, returns that number, leaves `begin` and
the storage untouched, and — when it advances a positive number of positions —
raises `full` exactly when `begin == end` afterward (a zero-length `produce`
returns early and leaves `full` unchanged); `consume` advances `begin` by
exactly `min n count` modulo the capacity, returns that number, leaves `end`
and the storage untouched, and clears `full` whenever it consumes a positive
number. -/
theorem produce_consume_spec (s : RingBuffer) (n : ℕ) (h : Inv s) :
    (produce s n).2 = min n (getFree s) ∧
    (produce s n).1.end_ = (s.end_ + min n (getFree s)) % s.size ∧
    (produce s n).1.begin = s.begin ∧
    (produce s n).1.buf = s.buf ∧
    (0 < (produce s n).2 →
      ((produce s n).1.wrap = true ↔ s.begin = (produce s n).1.end_)) ∧
    (consume s n).2 = min n (count s) ∧
    (consume s n).1.begin = (s.begin + min n (count s)) % s.size ∧
    (consume s n).1.end_ = s.end_ ∧
    (consume s n).1.buf = s.buf ∧
    (0 < (consume s n).2 → (consume s n).1.wrap = false) := by
  refine ⟨produce_ret s n, produce_end n h, produce_begin s n, produce_buf s n,
    fun hpos => ?_, consume_ret s n, consume_begin n h, consume_end s n,
    consume_buf s n, fun hpos => ?_⟩
  · rw [produce_ret] at hpos
    rw [produce_wrap_pos h hpos]
    constructor
    · intro hw
      by_contra hne
      rw [if_neg hne] at hw
      exact Bool.false_ne_true hw
    · intro hc
      rw [if_pos hc]
  · rw [consume_ret] at hpos
    exact consume_wrap_pos hpos

/-- Witness for C8 (amended) at a fresh capacity-3 buffer with `n = 2`. -/
theorem produce_consume_spec_witness :
    (produce (fresh 3) 2).2 = min 2 (getFree (fresh 3)) ∧
    (produce (fresh 3) 2).1.end_
      = ((fresh 3).end_ + min 2 (getFree (fresh 3))) % (fresh 3).size ∧
    (produce (fresh 3) 2).1.begin = (fresh 3).begin ∧
    (produce (fresh 3) 2).1.buf = (fresh 3).buf ∧
    (0 < (produce (fresh 3) 2).2 →
      ((produce (fresh 3) 2).1.wrap = true ↔
        (fresh 3).begin = (produce (fresh 3) 2).1.end_)) ∧
    (consume (fresh 3) 2).2 = min 2 (count (fresh 3)) ∧
    (consume (fresh 3) 2).1.begin
      = ((fresh 3).begin + min 2 (count (fresh 3))) % (fresh 3).size ∧
    (consume (fresh 3) 2).1.end_ = (fresh 3).end_ ∧
    (consume (fresh 3) 2).1.buf = (fresh 3).buf ∧
    (0 < (consume (fresh 3) 2).2 → (consume (fresh 3) 2).1.wrap = false) :=
  produce_consume_spec (fresh 3) 2 (by decide)

/-- Claim C8 counterexample: `produce(0)` on an empty capacity-1 buffer
returns `0 = min 0 freeCount` and afterwards `begin == end`, yet `full` is
still `false` — so the claim's "setting full when begin == end afterward"
fails as literally stated. -/
theorem produce_wrap_counterexample :
    (produce (fresh 1) 0).1.begin = (produce (fresh 1) 0).1.end_ ∧
    (produce (fresh 1) 0).1.wrap = false := by decide

/-- Claim C9: `get_most_recent()` returns the element stored at the current
`end` index without touching the state — and `end` really is the next free
write slot: a push on a non-full buffer writes its value at exactly that
physical index and advances `end` by one. -/
theorem get_most_recent_spec (s : RingBuffer) (v : ℚ) (h : Inv s)
    (h0 : 0 < s.size) :
    get_most_recent s = s.buf.getD s.end_ 0 ∧
    (count s < s.size →
      (push s v).buf = s.buf.set s.end_ v ∧
      (push s v).end_ = (s.end_ + 1) % s.size) := by
  refine ⟨rfl, fun hnf => ?_⟩
  have hne : count s ≠ s.size := by omega
  have hmin : min 1 (s.size - s.end_) = 1 := by
    have := (h.2.1 h0).2
    omega
  constructor
  · simp only [push]
    rw [if_neg hne]
  · simp only [push]
    rw [if_neg hne, hmin]

/-- Witness for C9 on a fresh capacity-2 buffer and value 7. -/
theorem get_most_recent_spec_witness :
    get_most_recent (fresh 2) = (fresh 2).buf.getD (fresh 2).end_ 0 ∧
    (count (fresh 2) < (fresh 2).size →
      (push (fresh 2) 7).buf = (fresh 2).buf.set (fresh 2).end_ 7 ∧
      (push (fresh 2) 7).end_ = ((fresh 2).end_ + 1) % (fresh 2).size) :=
  get_most_recent_spec (fresh 2) 7 (by decide) (by decide)

/-- Claim C10: on every reachable state the `wrap` flag is raised only with
`begin == end`; on positive capacity, `count()` reports the capacity exactly
when the flag is raised (i.e. the buffer is genuinely full), and the flag is
never raised on an empty state, so an empty buffer is never reported full. -/
theorem wrap_invariant (s : RingBuffer) (h : Reachable s) :
    (s.wrap = true → s.begin = s.end_) ∧
    (0 < s.size → (count s = s.size ↔ s.wrap = true)) ∧
    (0 < s.size → count s = 0 → s.wrap = false) := by
  have hInv := reachable_inv h
  refine ⟨hInv.2.2.2, fun h0 => count_eq_size_iff hInv h0, fun h0 hc => ?_⟩
  rcases Bool.eq_false_or_eq_true s.wrap with h' | h'
  · have := (count_eq_size_iff hInv h0).mpr h'
    omega
  · exact h'

/-- Witness for C10 at the full state reached by two pushes into a fresh
capacity-2 buffer. -/
theorem wrap_invariant_witness :
    ((push (push (fresh 2) 3) 4).wrap = true →
      (push (push (fresh 2) 3) 4).begin = (push (push (fresh 2) 3) 4).end_) ∧
    (0 < (push (push (fresh 2) 3) 4).size →
      (count (push (push (fresh 2) 3) 4) = (push (push (fresh 2) 3) 4).size ↔
        (push (push (fresh 2) 3) 4).wrap = true)) ∧
    (0 < (push (push (fresh 2) 3) 4).size →
      count (push (push (fresh 2) 3) 4) = 0 →
      (push (push (fresh 2) 3) 4).wrap = false) :=
  wrap_invariant _
    (Reachable.push _ 4 (Reachable.push _ 3 (Reachable.fresh 2)))

/-- Claim C1 (code_bug evidence).  On a capacity-5 buffer holding
`1,2,3,4,5`, `mean(2)` returns `9/5`: the loop does sum the most recent 2
elements (`4 + 5 = 9`), but the divisor is `count() = 5`, not the window size,
so the result is not the window mean `9/2` demanded by the claim. -/
theorem mean_n_window_code_bug :
    mean_n fiveState 2 = 9 / 5 ∧
    meanWindowSpec fiveState 2 = 9 / 2 ∧
    mean_n fiveState 2 ≠ meanWindowSpec fiveState 2 := by
  refine ⟨?_, ?_, ?_⟩ <;>
    norm_num [mean_n, mean_n_clamp, meanWindowSpec, toList, statSum, statStep,
      count, fiveState, push, consume, fresh, getFree, List.range_succ]

/-- Claim C2 (code_bug evidence).  On a capacity-4 buffer holding `1,5`:
`mean()` is `3`, the occupied elements are `[1,5]`, so the claimed sample
variance is `((1-3)² + (5-3)²) / (count()-1) = 8/1 = 8`; but `variance()`
returns `8/3` because it divides by `size - 1 = 3` (the capacity, not the
occupied count). -/
theorem variance_code_bug :
    variance partialState = 8 / 3 ∧
    varianceSpec partialState = 8 ∧
    variance partialState ≠ varianceSpec partialState := by
  refine ⟨?_, ?_, ?_⟩ <;>
    norm_num [variance, varianceSpec, mean, toList, statSum, statStep,
      count, partialState, push, consume, fresh, getFree, List.range_succ]

/-- Claim C3 (code_bug evidence).  On a capacity-3 buffer the statistics
iterator steps `(iterator + size - 1) % curr_cnt` — remainder by the occupied
count, not the capacity.  Holding `1,5` (`count() = 2`), `mean()` reads
`buf[0]` twice and `buf[1]` never, returning `1` instead of the mean `3` of
the occupied elements `[1,5]`; holding `0,5`, `zeroCount()` reports 2 zeros
though only one occupied element is zero. -/
theorem stats_traversal_code_bug :
    (toList shortState = [1, 5] ∧ mean shortState = 1 ∧
      mean shortState ≠ (1 + 5 : ℚ) / 2) ∧
    (toList shortZeroState = [0, 5] ∧ zeroCount shortZeroState = 2) := by
  refine ⟨⟨by decide, ?_, ?_⟩, by decide, by decide⟩ <;>
    norm_num [mean, toList, statSum, statStep, count, shortState, push,
      consume, fresh, getFree]

/-- Claim C4 (code_bug evidence).  `mean(1)` on an empty capacity-1 buffer
runs its loop `mean_n_clamp = 1 > 0` times while `count() = 0`, so the body
evaluates `(iterator + size - 1) % curr_cnt` with `curr_cnt == 0` — a modulo
by zero (undefined behaviour in C++).  Likewise `push` on a capacity-0 buffer
takes the `count() == size` branch and then evaluates
`(end + first_chunk) % size` with `size == 0` after writing `*(buf + end)`
out of bounds. -/
theorem mod_zero_code_bug :
    mean_n_clamp (fresh 1) 1 = 1 ∧ count (fresh 1) = 0 ∧
    (fresh 0).size = 0 ∧ count (fresh 0) = (fresh 0).size := by decide

end ZeroTier
